import Mathlib

/-!
Verification of the autocomplete-aware LALR(1) parse engine of sympad
(`lalr1.Parser` and its grammar-specific subclass `sparser.Parser`).

Shallow embedding conventions:
* The mutable locals of `lalr1.Parser.parse` (`tokens`, `tokidx`, `cstack`,
  `stack`, `stidx`, `rederr`) become the fields of `Config`; one iteration of
  the `while 1` loop becomes the pure function `step`; the loop itself is
  `run` with explicit fuel.
* The parse stack grows at the head of a Lean list (python appends at the
  end), so python's `stack[-1]` is `stack.head?`, `stack[rnlen:]` is
  `stack.take k` read in reverse, and `del stack[rnlen:]` is `stack.drop k`.
* Python `State` tuples `(idx, sym)` / `(idx, sym, red)` become `StEntry`:
  `sym` is `none` only for the initial `State (0, None, None)` entry, and the
  uniform python access `t[-1]` (token for 2-tuples, reduction value for
  3-tuples, `None` for the initial entry) becomes the `val : StVal V` field.
* Reduction callbacks return normally, raise `SyntaxError`, or raise
  `Incomplete`; this three-way outcome is the explicit `RedRes` type.
* Caller hooks (`parse_getextrastate`/`parse_setextrastate`/`parse_error`/
  `parse_success`) are function fields of `Eng`.  `parse_error` mutates
  `self.tokens`/`self.tokidx`/`self.stack`/`self.stidx` in place (the engine
  re-reads `tokidx`/`stidx` and sees in-place list mutation through aliasing);
  this is modelled by the hook returning the updated `Live` state adopted by
  the engine when the hook asks to continue.
* Dictionary/list accesses that would raise in python (`IndexError`,
  `KeyError`, calling the `None` placeholder `rfuncs[0]`, reading `.red` off a
  2-tuple) are mapped to the `crash` outcome.
* Machine integers do not occur; python ints are `Nat`/`Int` directly.
-/

namespace SymPad

/-- A lexer token: python `Token(str_, text, pos, grps)`, a `str` subclass
whose string value is the token kind (`'NUM'`, `'$end'`, ...). -/
structure Tok where
  kind : String
  text : String
  pos : Nat
  grp : List (Option String)
deriving DecidableEq

/-- The value carried by a parse-stack entry, python `t [-1]`: the token for
shifted 2-tuples, the reduction value for 3-tuples, `None` for the initial
`State (0, None, None)`. -/
inductive StVal (V : Type) where
  | noneV : StVal V
  | tokV : Tok → StVal V
  | redV : V → StVal V
deriving DecidableEq

/-- A parse-stack entry, python `State`: state index, grammar symbol
(`none` only for the initial entry; token kind for shifted entries;
production name for reduced entries) and carried value. -/
structure StEntry (V : Type) where
  idx : Nat
  sym : Option String
  val : StVal V
deriving DecidableEq

/-- Outcome of one reduction callback: normal return, `raise SyntaxError`,
or `raise Incomplete (red)` carrying the best-effort placeholder. -/
inductive RedRes (V : Type) where
  | ok : V → RedRes V
  | err : RedRes V
  | incomplete : V → RedRes V

/-- The `rederr` local of the parse loop when set: the exception raised by
the last reduction callback (`SyntaxError ... or True`, or `Incomplete`). -/
inductive Rederr (V : Type) where
  | synErr : Rederr V
  | incomplete : V → Rederr V
deriving DecidableEq

/-- A conflict record, python
`(conf, tokens [:], tokidx, stack [:], stidx, parse_getextrastate ())`. -/
structure CRec (V E : Type) where
  act : Int
  tokens : List Tok
  tokidx : Nat
  stack : List (StEntry V)
  stidx : Nat
  estate : E
deriving DecidableEq

/-- The complete mutable state of one `lalr1.Parser.parse` invocation:
its loop locals plus the hook-owned state `hook` (for `sparser.Parser`
the fields `parse_results`/`autocomplete`/`autocompleting`/`erridx`). -/
structure Config (V E R : Type) where
  tokens : List Tok
  tokidx : Nat
  cstack : List (CRec V E)
  stack : List (StEntry V)
  stidx : Nat
  rederr : Option (Rederr V)
  hook : R
deriving DecidableEq

/-- What `parse_error` can see: the engine assigns
`self.tokens, self.tokidx, self.cstack, self.stack, self.stidx, self.tok,
self.rederr` right before invoking the hooks. -/
structure ErrIn (V : Type) where
  tokens : List Tok
  tokidx : Nat
  stack : List (StEntry V)
  stidx : Nat
  tok : Tok
  rederr : Option (Rederr V)

/-- The live loop state a `parse_error` hook may have mutated in place and
that the engine adopts (`tokidx, stidx = self.tokidx, self.stidx` plus
aliased in-place mutation of `tokens` and `stack`) when the hook returns
truthy. -/
structure Live (V : Type) where
  tokens : List Tok
  tokidx : Nat
  stack : List (StEntry V)
  stidx : Nat

/-- Result of `lalr1.Parser.parse`: the accepted value (no-override mode),
`None`, or a raised `SyntaxError` with its message. -/
inductive Outcome (V : Type) where
  | val : V → Outcome V
  | noneRes : Outcome V
  | synErr : String → Outcome V
deriving DecidableEq

/-- One loop iteration either continues with a new state, returns/raises,
or hits a python runtime error (modelled abstractly as `crash`). -/
inductive EStep (V E R : Type) where
  | cont : Config V E R → EStep V E R
  | done : Outcome V → R → EStep V E R
  | crash : EStep V E R
deriving DecidableEq

/-- The engine instance: grammar tables built by `lalr1.Parser.__init__`
(read-only for the lifetime of the instance) together with the four
caller-supplied hooks.  `hasSuccess` is
`self.parse_success.__doc__ != 'NO PARSE_SUCCESS'`, i.e. whether the caller
overrode `parse_success`. -/
structure Eng (V E R : Type) where
  topSym : String
  termAct : Nat → String → Option (Int × Option Int)
  gotoTbl : Nat → String → Option Nat
  ruleTbl : Nat → Option (String × List String)
  rfunc : Nat → Option (List (StVal V) → RedRes V)
  hasSuccess : Bool
  getExtra : R → E
  setExtra : E → R → R
  onError : ErrIn V → R → Bool × Live V × R
  onSuccess : V → R → Bool × R

/-- The initial stack entry `State (0, None, None)`. -/
def initEntry (V : Type) : StEntry V := ⟨0, none, StVal.noneV⟩

/-- Initial loop state of `parse`: freshly tokenized input, `tokidx = 0`,
empty conflict stack, `stack = [State (0, None, None)]`, `stidx = 0`. -/
def initConfig {V E R : Type} (tokens : List Tok) (r : R) : Config V E R :=
  ⟨tokens, 0, [], [initEntry V], 0, none, r⟩

/-- The acceptance test of the stuck block:
`tok == '$end' and stidx == 1 and len (stack) == 2 and stack [1] [1] == rules [0] [1]`
(python `stack [1]` is the top of the 2-entry stack, our list head;
`rules [0] [1]` is the designated top symbol). -/
def acceptTest {V E R : Type} (P : Eng V E R) (c : Config V E R) (tok : Tok) : Bool :=
  tok.kind == "$end" && c.stidx == 1 && c.stack.length == 2 &&
    (match c.stack.head? with
     | some e => e.sym == some P.topSym
     | none => false)

/-- The `SyntaxError` message raised in strict mode (python uses `repr`
quoting around the interpolated parts, immaterial here). -/
def errMsg (src : List Char) (tok : Tok) : String :=
  if tok.kind = "$end" then "unexpected end of input"
  else if tok.kind = "$err" then "invalid token " ++ tok.text
  else "invalid syntax " ++ ((src.drop tok.pos).take 16).asString

/-- The conflict record pushed before acting on the primary action of an
ambiguous cell:
`cstack.append ((conf, tokens [:], tokidx, stack [:], stidx, self.parse_getextrastate ()))`. -/
def captureRec {V E R : Type} (P : Eng V E R) (c : Config V E R) (a : Int) : CRec V E :=
  ⟨a, c.tokens, c.tokidx, c.stack, c.stidx, P.getExtra c.hook⟩

/-- The loop state right after
`act, tokens, tokidx, stack, stidx, estate = cstack.pop ()` and
`self.parse_setextrastate (estate)` (with `rederr` already cleared). -/
def restoredConfig {V E R : Type} (P : Eng V E R) (cr : CRec V E)
    (rest : List (CRec V E)) (r' : R) : Config V E R :=
  ⟨cr.tokens, cr.tokidx, rest, cr.stack, cr.stidx, none, P.setExtra cr.estate r'⟩

/-- Pushes the freshly reduced nonterminal: `del stack [rnlen:]`, then
`stidx = nterms [stack [-1].idx] [prod]` and
`stack.append (State (stidx, prod, red))`. -/
def pushReduce {V E R : Type} (P : Eng V E R) (c : Config V E R) (lhs : String)
    (k : Nat) (v : V) (re : Option (Rederr V)) : EStep V E R :=
  let stack' := c.stack.drop k
  match stack'.head? with
  | none => EStep.crash
  | some top =>
    match P.gotoTbl top.idx lhs with
    | none => EStep.crash
    | some g =>
      EStep.cont { c with stack := ⟨g, some lhs, StVal.redV v⟩ :: stack',
                          stidx := g, rederr := re }

/-- The argument tuple of a reduction callback:
`*((t [-1] for t in stack [rnlen:]) if rnlen else ())` — the values of the
popped entries in stack (bottom-to-top) order, and no arguments for an
empty right-hand side. -/
def popArgs {V : Type} (stack : List (StEntry V)) (k : Nat) : List (StVal V) :=
  if k = 0 then [] else (stack.take k).reverse.map (fun e => e.val)

/-- Dispatch of an action: `if act > 0` shift, else reduce by
`rules [-act]` calling `rfuncs [-act]` on the popped values.  A
`SyntaxError` from the callback sets `rederr` and continues with nothing
popped; an `Incomplete` uses its best-effort `red` as the value and also
sets `rederr`. -/
def applyAct {V E R : Type} (P : Eng V E R) (c : Config V E R) (tok : Tok)
    (act : Int) : EStep V E R :=
  if 0 < act then
    EStep.cont { c with tokidx := c.tokidx + 1, stidx := act.toNat,
                        stack := ⟨act.toNat, some tok.kind, StVal.tokV tok⟩ :: c.stack }
  else
    match P.ruleTbl (-act).toNat with
    | none => EStep.crash
    | some (lhs, rhs) =>
      match P.rfunc (-act).toNat with
      | none => EStep.crash
      | some f =>
        match f (popArgs c.stack rhs.length) with
        | RedRes.err => EStep.cont { c with rederr := some Rederr.synErr }
        | RedRes.ok v => pushReduce P c lhs rhs.length v none
        | RedRes.incomplete v => pushReduce P c lhs rhs.length v (some (Rederr.incomplete v))

/-- Popping a conflict record and resuming from it:
restore the saved loop state, re-read `tok = tokens [tokidx]`, and dispatch
the recorded alternative action (no conflict check on this dispatch). -/
def resumeStep {V E R : Type} (P : Eng V E R) (cr : CRec V E)
    (rest : List (CRec V E)) (r' : R) : EStep V E R :=
  let c' := restoredConfig P cr rest r'
  match c'.tokens.get? c'.tokidx with
  | none => EStep.crash
  | some tok => applyAct P c' tok cr.act

/-- The stuck block of the loop (entered when `rederr` is set or no action
exists for `(stidx, tok)`): acceptance check first, then the error hook,
then conflict-stack fallback, and only with everything exhausted the final
return/raise. -/
def stuckStep {V E R : Type} (P : Eng V E R) (src : List Char) (c : Config V E R)
    (tok : Tok) : EStep V E R :=
  if acceptTest P c tok then
    match c.stack.head? with
    | some e =>
      match e.val with
      | StVal.redV v =>
        if P.hasSuccess then
          let sr := P.onSuccess v c.hook
          if sr.1 then
            match c.cstack with
            | [] => EStep.done Outcome.noneRes sr.2
            | cr :: rest => resumeStep P cr rest sr.2
          else EStep.done Outcome.noneRes sr.2
        else EStep.done (Outcome.val v) c.hook
      | _ => EStep.crash
    | none => EStep.crash
  else
    let er := P.onError ⟨c.tokens, c.tokidx, c.stack, c.stidx, tok, c.rederr⟩ c.hook
    if er.1 then
      EStep.cont ⟨er.2.1.tokens, er.2.1.tokidx, c.cstack, er.2.1.stack,
                  er.2.1.stidx, none, er.2.2⟩
    else
      match c.cstack with
      | [] =>
        if P.hasSuccess then EStep.done Outcome.noneRes er.2.2
        else EStep.done (Outcome.synErr (errMsg src tok)) er.2.2
      | cr :: rest => resumeStep P cr rest er.2.2

/-- One iteration of the `while 1` loop of `lalr1.Parser.parse`.
When `rederr` is set python keeps the stale `tok` of the iteration that set
it; that iteration read `tok = tokens [tokidx]` and neither field changed
since, so re-reading here is equivalent. -/
def step {V E R : Type} (P : Eng V E R) (src : List Char) (c : Config V E R) :
    EStep V E R :=
  match c.tokens.get? c.tokidx with
  | none => EStep.crash
  | some tok =>
    match c.rederr with
    | some _ => stuckStep P src c tok
    | none =>
      match P.termAct c.stidx tok.kind with
      | none => stuckStep P src c tok
      | some (act, conf) =>
        let c1 := match conf with
          | some a => { c with cstack := captureRec P c a :: c.cstack }
          | none => c
        applyAct P c1 tok act

/-- Result of running the loop to completion: a python return value or
raised `SyntaxError` (`out`), a python runtime error (`crash`), or fuel
exhaustion (the loop has no built-in bound). -/
inductive RunRes (V R : Type) where
  | out : Outcome V → R → RunRes V R
  | crash : RunRes V R
  | fuelOut : RunRes V R
deriving DecidableEq

/-- The parse loop with explicit fuel. -/
def run {V E R : Type} (P : Eng V E R) (src : List Char) :
    Nat → Config V E R → RunRes V R
  | 0, _ => RunRes.fuelOut
  | n + 1, c =>
    match step P src c with
    | EStep.cont c' => run P src n c'
    | EStep.done o r => RunRes.out o r
    | EStep.crash => RunRes.crash

/-- The list of loop states visited (up to fuel), for stating that a
concrete run never consumed a given token. -/
def traceN {V E R : Type} (P : Eng V E R) (src : List Char) :
    Nat → Config V E R → List (Config V E R)
  | 0, c => [c]
  | n + 1, c =>
    c :: (match step P src c with
          | EStep.cont c' => traceN P src n c'
          | _ => [])

/-! ## Lexer (`lalr1.Parser.tokenize`)

The combined regex `'|'.join (f'(?P<tok>{pat})' ...)` tries the caller's
patterns in table order at the current position and the first one that
matches wins; a pattern is abstracted as a match function returning the
length consumed and the inner capture groups (`m.groups () [s:e] [1:]`).
The token text is the matched substring (`grps [0]`, the named outer
group). -/

/-- One named lexer pattern of the caller's ordered `TOKENS` table. -/
structure TokPat where
  name : String
  mtch : List Char → Nat → Option (Nat × List (Option String))

/-- `self.tokrec.match (text, pos)`: first pattern (in table order) that
matches at `pos`, with `m.lastgroup` being that pattern's name. -/
def firstMatch (pats : List TokPat) (s : List Char) (pos : Nat) :
    Option (String × Nat × List (Option String)) :=
  match pats with
  | [] => none
  | p :: rest =>
    match p.mtch s pos with
    | some (len, grps) => some (p.name, len, grps)
    | none => firstMatch rest s pos

/-- The substring `text [pos : pos + len]`. -/
def subText (s : List Char) (pos len : Nat) : String :=
  ((s.drop pos).take len).asString

/-- The synthetic end-of-input token `Token ('$end', '', pos)`. -/
def endTok (pos : Nat) : Tok := ⟨"$end", "", pos, []⟩

/-- The scanning loop of `tokenize`, with fuel (a python pattern matching
zero characters would loop forever; fuel 0 returns nothing, and
`text.length + 1` fuel is shown sufficient when every match consumes at
least one character). -/
def tokenizeAux (pats : List TokPat) (s : List Char) :
    Nat → Nat → List Tok
  | 0, _ => []
  | fuel + 1, pos =>
    if pos < s.length then
      match firstMatch pats s pos with
      | none => [⟨"$err", subText s pos 1, pos, []⟩, endTok pos]
      | some (name, len, grps) =>
        let rest := tokenizeAux pats s fuel (pos + len)
        if name = "ignore" then rest
        else ⟨name, subText s pos len, pos, grps⟩ :: rest
    else [endTok pos]

/-- `lalr1.Parser.tokenize`. -/
def tokenize (pats : List TokPat) (s : List Char) : List Tok :=
  tokenizeAux pats s (s.length + 1) 0

/-! ## Result ranker (`sparser.Parser.parse`)

`rated = sorted ((r is None, -e if e is not None else float ('-inf'),
len (a), i, (r, e, a)) for i, (r, e, a) in enumerate (self.parse_results))`
and the first element of `rated` is taken.  The sort key is the
lexicographic tuple order; taking the first element of the stable ascending
sort is taking the minimum (the index component `i` makes keys distinct, so
the trailing payload component is never compared).  `-e` with
`float ('-inf')` for `None` is encoded order-isomorphically as
`WithBot (OrderDual Nat)` with `⊥` for `None`. -/

/-- A collected `(reduction, erridx, autocomplete)` triple of
`parse_results`; `reduction` is `none` for python `None`, `erridx` `none`
for "no error". -/
abbrev Triple (V : Type) := Option V × Option Nat × List String

/-- The `-e if e is not None else float ('-inf')` key component. -/
def negErr (e : Option Nat) : WithBot (OrderDual Nat) :=
  match e with
  | none => ⊥
  | some n => (OrderDual.toDual n : OrderDual Nat)

/-- The python sort key `(r is None, -e ..., len (a), i)` of an enumerated
triple, as a lexicographically ordered tuple. -/
def pyKey {V : Type} (it : Nat × Triple V) :
    Lex (Bool × Lex (WithBot (OrderDual Nat) × Lex (Nat × Nat))) :=
  toLex (it.2.1.isNone, toLex (negErr it.2.2.1, toLex (it.2.2.2.length, it.1)))

/-- Minimum of the enumerated triples under the python key order (what
`sorted` followed by `next (iter (rated))` selects; keys are distinct so
the fold keeping the strictly smaller key is exactly the sorted head). -/
def pickMin {V : Type} : List (Nat × Triple V) → Option (Nat × Triple V)
  | [] => none
  | x :: xs => some (xs.foldl (fun acc y => if pyKey y < pyKey acc then y else acc) x)

/-- The ranked best triple of a `parse_results` list. -/
def rank {V : Type} (rs : List (Triple V)) : Option (Triple V) :=
  (pickMin rs.enum).map (fun it => it.2)

/-! ## The `sparser.Parser` hooks -/

/-- The mutable grammar-specific fields of a `sparser.Parser` instance:
`parse_results`, `autocomplete`, `autocompleting`, `erridx`. -/
structure SpState (V : Type) where
  results : List (Triple V)
  autocomplete : List String
  autocompleting : Bool
  erridx : Option Nat
deriving DecidableEq

/-- The opaque extra state snapshot
`(self.autocomplete [:], self.autocompleting, self.erridx)`. -/
abbrev SpExtra := List String × Bool × Option Nat

/-- `sparser.Parser.parse_getextrastate`. -/
def spGetExtra {V : Type} (r : SpState V) : SpExtra :=
  (r.autocomplete, r.autocompleting, r.erridx)

/-- `sparser.Parser.parse_setextrastate`. -/
def spSetExtra {V : Type} (e : SpExtra) (r : SpState V) : SpState V :=
  { r with autocomplete := e.1, autocompleting := e.2.1, erridx := e.2.2 }

/-- `sparser.Parser.parse_error`.  The two leading branches (an
`Incomplete` reduction records `(self.rederr.red, self.tok.pos, [])` and
declines; a non-`$end` stuck token records `(None, self.tok.pos, [])` and
declines) are from the source; the grammar-specific autocompletion
machinery for the `$end` case (`strules`-driven `_insert_symbol` /
`_mark_error` calls) is the opaque parameter `endHook`. -/
def spOnError {V : Type}
    (endHook : ErrIn V → SpState V → Bool × Live V × SpState V)
    (inp : ErrIn V) (r : SpState V) : Bool × Live V × SpState V :=
  match inp.rederr with
  | some (Rederr.incomplete v) =>
    (false, ⟨inp.tokens, inp.tokidx, inp.stack, inp.stidx⟩,
     { r with results := r.results ++ [(some v, some inp.tok.pos, [])] })
  | _ =>
    if inp.tok.kind ≠ "$end" then
      (false, ⟨inp.tokens, inp.tokidx, inp.stack, inp.stidx⟩,
       { r with results := r.results ++ [(none, some inp.tok.pos, [])] })
    else endHook inp r

/-- `sparser.Parser.parse_success`: records
`(red, self.erridx, self.autocomplete)` and always asks to keep exploring
remaining conflict branches. -/
def spOnSuccess {V : Type} (v : V) (r : SpState V) : Bool × SpState V :=
  (true, { r with results := r.results ++ [(some v, r.erridx, r.autocomplete)] })

/-- Builds the `sparser` engine over given grammar tables: the base engine
with the four hooks overridden (`parse_success` is overridden, so
`hasSuccess` holds). -/
def withSparserHooks {V : Type} (P : Eng V SpExtra (SpState V))
    (endHook : ErrIn V → SpState V → Bool × Live V × SpState V) :
    Eng V SpExtra (SpState V) :=
  { P with hasSuccess := true, getExtra := spGetExtra, setExtra := spSetExtra,
           onError := spOnError endHook, onSuccess := spOnSuccess }

/-- Fresh per-call values of the mutable `sparser` fields, assigned at the
top of `sparser.Parser.parse`. -/
def initSpState (V : Type) : SpState V := ⟨[], [], true, none⟩

/-- The characters python's default `str.strip` removes. -/
def pyStripChars : List Char := [' ', '\t', '\n', '\r', '\x0b', '\x0c']

/-- `not text.strip ()`. -/
def isBlank (s : List Char) : Bool := s.all (fun c => pyStripChars.contains c)

/-- `(res [0].remove_curlys (),) + res [1:] if isinstance (res [0], AST)
else res`; `rc` is `AST.remove_curlys` (recorded reductions are ASTs). -/
def finalizeRes {V : Type} (rc : V → V) (t : Triple V) : Triple V :=
  match t.1 with
  | some v => (some (rc v), t.2.1, t.2.2)
  | none => t

/-- `sparser.Parser.parse`, also returning the final instance state (the
mutable fields after the call).  `carry` is the instance state left behind
by earlier calls: it is overwritten before use, except on the blank-input
early return which touches nothing.  A `crash`/`fuelOut` of the engine
(python exception propagation / nontermination) yields no triple. -/
def sparserParseSt {V : Type} (P : Eng V SpExtra (SpState V))
    (pats : List TokPat) (rc : V → V) (varNull : V) (fuel : Nat)
    (carry : SpState V) (src : List Char) :
    Option (Triple V) × SpState V :=
  if isBlank src then (some (some varNull, some 0, []), carry)
  else
    match run P src fuel (initConfig (tokenize pats src) (initSpState V)) with
    | RunRes.out _ r =>
      match r.results with
      | [] => (some (none, some 0, []), r)
      | _ => ((rank r.results).map (finalizeRes rc), r)
    | _ => (none, initSpState V)

/-- The returned triple of `sparser.Parser.parse`. -/
def sparserParse {V : Type} (P : Eng V SpExtra (SpState V))
    (pats : List TokPat) (rc : V → V) (varNull : V) (fuel : Nat)
    (carry : SpState V) (src : List Char) : Option (Triple V) :=
  (sparserParseSt P pats rc varNull fuel carry src).1

/-! ## Spec-side definitions

These follow the specification's words (not the code) and are compared
with the code-level definitions above in the refinement theorems. -/

/-- Spec-side value of an error position: "treat no error as effectively
the end of input — later/greater is better", i.e. `none` is greater than
every actual position. -/
def specErrVal (e : Option Nat) : WithTop Nat :=
  match e with
  | none => ⊤
  | some n => (n : WithTop Nat)

/-- Spec-side selection order of the Result Ranker, "a is preferred over
b": 1. prefer a non-none value; 2. prefer the largest error position
(`none` greatest); 3. prefer fewer suggested continuations; 4. prefer the
earliest-explored branch. -/
def specPrefer {V : Type} (a b : Nat × Triple V) : Prop :=
  (a.2.1 ≠ none ∧ b.2.1 = none) ∨
  ((a.2.1 = none ↔ b.2.1 = none) ∧
    (specErrVal b.2.2.1 < specErrVal a.2.2.1 ∨
      (specErrVal a.2.2.1 = specErrVal b.2.2.1 ∧
        (a.2.2.2.length < b.2.2.2.length ∨
          (a.2.2.2.length = b.2.2.2.length ∧ a.1 < b.1)))))

/-- The engine's acceptance condition as executed: the stuck block is
entered (`rederr` set, or no action for the current `(state, token)` cell)
and the acceptance test holds there. -/
def accepts {V E R : Type} (P : Eng V E R) (c : Config V E R) : Prop :=
  match c.tokens.get? c.tokidx with
  | some tok =>
    (c.rederr.isSome = true ∨ P.termAct c.stidx tok.kind = none) ∧
    acceptTest P c tok = true
  | none => False

/-- Spec-side acceptance: the current token is `$end`, the stack is exactly
`[state0, acceptedNonterminal]`, and the accepted nonterminal is the
grammar's designated top symbol. -/
def specAccept {V E R : Type} (P : Eng V E R) (c : Config V E R) : Prop :=
  (∃ tok, c.tokens.get? c.tokidx = some tok ∧ tok.kind = "$end") ∧
  (∃ e v, c.stack = [e, initEntry V] ∧ e.sym = some P.topSym ∧
    e.val = StVal.redV v)

/-! ## Small concrete instances (used by witnesses and counterexamples) -/

/-- A tables-only engine with the base-class hooks of `lalr1.Parser`
(`parse_error` returns `False`, `parse_success` is not overridden,
`parse_getextrastate` / `parse_setextrastate` are no-ops modulo the
`SpState` carrier chosen for uniformity with the sparser instances). -/
def mkEng (V : Type) (topSym : String) (ta : Nat → String → Option (Int × Option Int))
    (gt : Nat → String → Option Nat) (ru : Nat → Option (String × List String))
    (rf : Nat → Option (List (StVal V) → RedRes V)) : Eng V SpExtra (SpState V) :=
  { topSym := topSym, termAct := ta, gotoTbl := gt, ruleTbl := ru, rfunc := rf,
    hasSuccess := false, getExtra := spGetExtra, setExtra := spSetExtra,
    onError := fun inp r => (false, ⟨inp.tokens, inp.tokidx, inp.stack, inp.stidx⟩, r),
    onSuccess := fun _ r => (false, r) }

/-- A stand-in for the grammar-specific `$end` autocompletion machinery:
decline and change nothing (never reached in the concrete runs below). -/
def trivialEndHook (V : Type) : ErrIn V → SpState V → Bool × Live V × SpState V :=
  fun inp r => (false, ⟨inp.tokens, inp.tokidx, inp.stack, inp.stidx⟩, r)

/-- Grammar ExA: `S -> Ap B`, `Ap -> A`.  State 0 shifts `A` to 2; state 2
reduces rule 2 on `B`; goto (0, Ap) = 4; state 4 shifts `B` to 5; state 5
reduces rule 1 on `$end`; goto (0, S) = 1; state 1 accepts at `$end`. -/
def exATermAct : Nat → String → Option (Int × Option Int)
  | 0, "A" => some (2, none)
  | 2, "B" => some (-2, none)
  | 4, "B" => some (5, none)
  | 5, "$end" => some (-1, none)
  | _, _ => none

def exAGoto : Nat → String → Option Nat
  | 0, "Ap" => some 4
  | 0, "S" => some 1
  | _, _ => none

def exARules : Nat → Option (String × List String)
  | 1 => some ("S", ["Ap", "B"])
  | 2 => some ("Ap", ["A"])
  | _ => none

/-- ExA reduction callbacks where `Ap -> A` raises
`Incomplete ("Ap?")` (a best-effort placeholder). -/
def exARfIncomplete : Nat → Option (List (StVal String) → RedRes String)
  | 1 => some (fun _ => RedRes.ok "S")
  | 2 => some (fun _ => RedRes.incomplete "Ap?")
  | _ => none

/-- ExA reduction callbacks with all reductions completing normally. -/
def exARfOk : Nat → Option (List (StVal String) → RedRes String)
  | 1 => some (fun _ => RedRes.ok "S")
  | 2 => some (fun _ => RedRes.ok "Ap")
  | _ => none

/-- ExA with the sparser hooks and the incomplete `Ap` callback. -/
def exAInc : Eng String SpExtra (SpState String) :=
  withSparserHooks (mkEng String "S" exATermAct exAGoto exARules exARfIncomplete)
    (trivialEndHook String)

/-- ExA with the sparser hooks and normally completing callbacks. -/
def exAOk : Eng String SpExtra (SpState String) :=
  withSparserHooks (mkEng String "S" exATermAct exAGoto exARules exARfOk)
    (trivialEndHook String)

/-- ExA with the base-class hooks (strict mode). -/
def exAStrict : Eng String SpExtra (SpState String) :=
  mkEng String "S" exATermAct exAGoto exARules exARfOk

def tokA : Tok := ⟨"A", "a", 0, []⟩

def tokB : Tok := ⟨"B", "b", 1, []⟩

/-- The token sequence of input `"ab"` under ExA's lexicon. -/
def toksAB : List Tok := [tokA, tokB, endTok 2]

/-- Grammar ExB: `S -> A`.  State 0 shifts `A` to 2; state 2 reduces
rule 1 on `$end`; goto (0, S) = 1; state 1 accepts at `$end`. -/
def exBTermAct : Nat → String → Option (Int × Option Int)
  | 0, "A" => some (2, none)
  | 2, "$end" => some (-1, none)
  | _, _ => none

def exBGoto : Nat → String → Option Nat
  | 0, "S" => some 1
  | _, _ => none

def exBRules : Nat → Option (String × List String)
  | 1 => some ("S", ["A"])
  | _ => none

def exBRf : Nat → Option (List (StVal String) → RedRes String)
  | 1 => some (fun _ => RedRes.ok "S")
  | _ => none

/-- ExB with the sparser hooks. -/
def exB : Eng String SpExtra (SpState String) :=
  withSparserHooks (mkEng String "S" exBTermAct exBGoto exBRules exBRf)
    (trivialEndHook String)

/-- Lexer pattern matching a single `'a'` as token kind `A`. -/
def patA : TokPat :=
  ⟨"A", fun s pos => if s.get? pos = some 'a' then some (1, []) else none⟩

/-- Lexer pattern matching a single `' '` tagged `ignore`. -/
def patSpace : TokPat :=
  ⟨"ignore", fun s pos => if s.get? pos = some ' ' then some (1, []) else none⟩

/-! ## Theorems -/

/-- C5: for a reduction by rule `(lhs, rhs)` performed by the parse loop,
exactly `rhs.length` entries are popped from the parse stack, the rule's
reduction callback is invoked with exactly those popped entries' values in
their stack order (`popArgs`; no arguments when `rhs` is empty), and the
state of the freshly pushed nonterminal entry comes from the goto entry for
(state of the new stack top, `lhs`). -/
theorem spec_C5_reduce_mechanics {V E R : Type} (P : Eng V E R) (src : List Char)
    (c : Config V E R) (tok : Tok) (act : Int) (conf : Option Int)
    (lhs : String) (rhs : List String) (f : List (StVal V) → RedRes V)
    (v : V) (top : StEntry V) (g : Nat)
    (hre : c.rederr = none)
    (hget : c.tokens.get? c.tokidx = some tok)
    (hact : P.termAct c.stidx tok.kind = some (act, conf))
    (hneg : act ≤ 0)
    (hrule : P.ruleTbl (-act).toNat = some (lhs, rhs))
    (hf : P.rfunc (-act).toNat = some f)
    (hcall : f (popArgs c.stack rhs.length) = RedRes.ok v)
    (htop : (c.stack.drop rhs.length).head? = some top)
    (hgoto : P.gotoTbl top.idx lhs = some g) :
    ∃ c', step P src c = EStep.cont c' ∧
      c'.stack = ⟨g, some lhs, StVal.redV v⟩ :: c.stack.drop rhs.length ∧
      c'.stidx = g ∧ c'.tokidx = c.tokidx ∧ c'.tokens = c.tokens ∧
      c'.rederr = none ∧
      popArgs c.stack rhs.length =
        (if rhs.length = 0 then []
         else (c.stack.take rhs.length).reverse.map (fun e => e.val)) := by
  have hnotpos : ¬ (0 < act) := by omega
  cases conf with
  | none =>
    have hstep : step P src c = EStep.cont
        { c with stack := (StEntry.mk g (some lhs) (StVal.redV v)) :: c.stack.drop rhs.length,
                 stidx := g, rederr := none } := by
      simp only [step, hget, hre, hact, applyAct, if_neg hnotpos, hrule, hf, hcall,
        pushReduce, htop, hgoto]
    exact ⟨_, hstep, rfl, rfl, rfl, rfl, rfl, rfl⟩
  | some a =>
    have hstep : step P src c = EStep.cont
        { c with cstack := captureRec P c a :: c.cstack,
                 stack := (StEntry.mk g (some lhs) (StVal.redV v)) :: c.stack.drop rhs.length,
                 stidx := g, rederr := none } := by
      simp only [step, hget, hre, hact, applyAct, if_neg hnotpos, hrule, hf, hcall,
        pushReduce, htop, hgoto]
    exact ⟨_, hstep, rfl, rfl, rfl, rfl, rfl, rfl⟩

/-- The ExA loop state right after shifting `A`: about to reduce
`Ap -> A` on lookahead `B`. -/
def exACfg1 : Config String SpExtra (SpState String) :=
  ⟨toksAB, 1, [], [⟨2, some "A", StVal.tokV tokA⟩, initEntry String], 2, none,
   initSpState String⟩

theorem spec_C5_reduce_mechanics_witness :
    ∃ c', step exAOk "ab".toList exACfg1 = EStep.cont c' ∧
      c'.stack = ⟨4, some "Ap", StVal.redV "Ap"⟩ ::
        exACfg1.stack.drop (["A"] : List String).length ∧
      c'.stidx = 4 ∧ c'.tokidx = exACfg1.tokidx ∧ c'.tokens = exACfg1.tokens ∧
      c'.rederr = none ∧
      popArgs exACfg1.stack (["A"] : List String).length =
        (if (["A"] : List String).length = 0 then []
         else (exACfg1.stack.take (["A"] : List String).length).reverse.map
           (fun e => e.val)) :=
  spec_C5_reduce_mechanics exAOk "ab".toList exACfg1 tokB (-2) none "Ap" ["A"]
    (fun _ => RedRes.ok "Ap") "Ap" (initEntry String) 4 rfl rfl rfl (by decide)
    rfl rfl rfl rfl rfl

/-- C3: a stuck loop state (no acceptance) where the error hook declines
and no conflict record remains makes `parse` return no result when the
success hook is overridden (permissive/autocomplete mode), and raise the
descriptive `SyntaxError` built by `errMsg` from the offending token (its
kind, text and source position) when it is not (strict mode); the mode is
`hasSuccess`, i.e. whether the caller overrode `parse_success`, not a
grammar property. -/
theorem spec_C3_every_branch_fails {V E R : Type} (P : Eng V E R) (src : List Char)
    (c : Config V E R) (tok : Tok) (ls : Live V) (r' : R)
    (hget : c.tokens.get? c.tokidx = some tok)
    (hstuck : c.rederr.isSome = true ∨ P.termAct c.stidx tok.kind = none)
    (hnacc : acceptTest P c tok = false)
    (herr : P.onError ⟨c.tokens, c.tokidx, c.stack, c.stidx, tok, c.rederr⟩ c.hook
      = (false, ls, r'))
    (hcs : c.cstack = []) :
    (P.hasSuccess = true → step P src c = EStep.done Outcome.noneRes r') ∧
    (P.hasSuccess = false →
      step P src c = EStep.done (Outcome.synErr (errMsg src tok)) r') := by
  have hstep : step P src c = stuckStep P src c tok := by
    cases hre : c.rederr with
    | some e => simp only [step, hget, hre]
    | none =>
      rcases hstuck with h | h
      · rw [hre] at h
        simp at h
      · simp only [step, hget, hre, h]
  have hs : stuckStep P src c tok =
      (if P.hasSuccess then EStep.done Outcome.noneRes r'
       else EStep.done (Outcome.synErr (errMsg src tok)) r') := by
    simp only [stuckStep, hnacc, Bool.false_eq_true, if_false, herr, hcs]
  rw [hstep, hs]
  constructor
  · intro h
    simp [h]
  · intro h
    simp [h]

def tokB0 : Tok := ⟨"B", "b", 0, []⟩

/-- A loop state stuck at its very first token (`B` is not shiftable in
state 0 of ExA). -/
def cfgStuck : Config String SpExtra (SpState String) :=
  initConfig [tokB0, endTok 1] (initSpState String)

theorem spec_C3_every_branch_fails_witness :
    step exAStrict "b".toList cfgStuck =
      EStep.done (Outcome.synErr (errMsg "b".toList tokB0)) (initSpState String) ∧
    step exAInc "b".toList cfgStuck =
      EStep.done Outcome.noneRes ⟨[(none, some 0, [])], [], true, none⟩ :=
  ⟨(spec_C3_every_branch_fails exAStrict "b".toList cfgStuck tokB0
      ⟨[tokB0, endTok 1], 0, [initEntry String], 0⟩ (initSpState String)
      rfl (Or.inr rfl) rfl rfl rfl).2 rfl,
   (spec_C3_every_branch_fails exAInc "b".toList cfgStuck tokB0
      ⟨[tokB0, endTok 1], 0, [initEntry String], 0⟩
      ⟨[(none, some 0, [])], [], true, none⟩
      rfl (Or.inr rfl) rfl rfl rfl).1 rfl⟩

/-- Helper: a loop state whose `rederr` carries an `Incomplete` placeholder
enters the stuck block on its next step; away from acceptance the sparser
error hook records `(placeholder, current token position, [])` as a
candidate result and declines, so the engine either ends the branch
(`parse` returns `None`) or resumes the most recent conflict record. -/
theorem spIncompleteStuck {V : Type} (P0 : Eng V SpExtra (SpState V))
    (endHook : ErrIn V → SpState V → Bool × Live V × SpState V)
    (src : List Char) (c' : Config V SpExtra (SpState V)) (v : V) (tok' : Tok)
    (hre' : c'.rederr = some (Rederr.incomplete v))
    (hget' : c'.tokens.get? c'.tokidx = some tok')
    (hnacc' : acceptTest (withSparserHooks P0 endHook) c' tok' = false) :
    (c'.cstack = [] →
      step (withSparserHooks P0 endHook) src c' = EStep.done Outcome.noneRes
        { c'.hook with results := c'.hook.results ++ [(some v, some tok'.pos, [])] }) ∧
    (∀ cr rest, c'.cstack = cr :: rest →
      step (withSparserHooks P0 endHook) src c' =
        resumeStep (withSparserHooks P0 endHook) cr rest
          { c'.hook with results := c'.hook.results ++ [(some v, some tok'.pos, [])] }) := by
  have h1 : (withSparserHooks P0 endHook).hasSuccess = true := rfl
  have h2 : (withSparserHooks P0 endHook).onError = spOnError endHook := rfl
  constructor
  · intro hcs
    simp only [step, hget', hre', stuckStep, hnacc', Bool.false_eq_true, if_false,
      h1, h2, spOnError, hcs, if_true]
  · intro cr rest hcs
    simp only [step, hget', hre', stuckStep, hnacc', Bool.false_eq_true, if_false,
      h1, h2, spOnError, hcs, if_true]

/-- C2 (amended): when a reduction callback signals incomplete with a
best-effort placeholder, the engine pushes the placeholder onto the parse
stack as if the reduction succeeded and keeps the incomplete signal in
`rederr`; the next iteration therefore treats it as a stuck condition
instead of continuing to parse: the sparser error hook records
`(placeholder, current token position, no suggestions)` as a candidate
result (marking the branch's result as not fully valid at that position
for ranking) and declines, so the engine backtracks to the most recent
conflict record, or ends the branch, rather than consuming the remaining
tokens on this branch. -/
theorem spec_C2_incomplete_reduction {V : Type}
    (P0 : Eng V SpExtra (SpState V))
    (endHook : ErrIn V → SpState V → Bool × Live V × SpState V)
    (src : List Char) (c : Config V SpExtra (SpState V)) (tok : Tok)
    (act : Int) (conf : Option Int) (lhs : String) (rhs : List String)
    (f : List (StVal V) → RedRes V) (v : V) (top : StEntry V) (g : Nat)
    (hre : c.rederr = none)
    (hget : c.tokens.get? c.tokidx = some tok)
    (hact : (withSparserHooks P0 endHook).termAct c.stidx tok.kind = some (act, conf))
    (hneg : act ≤ 0)
    (hrule : (withSparserHooks P0 endHook).ruleTbl (-act).toNat = some (lhs, rhs))
    (hf : (withSparserHooks P0 endHook).rfunc (-act).toNat = some f)
    (hcall : f (popArgs c.stack rhs.length) = RedRes.incomplete v)
    (htop : (c.stack.drop rhs.length).head? = some top)
    (hgoto : (withSparserHooks P0 endHook).gotoTbl top.idx lhs = some g) :
    ∃ c', step (withSparserHooks P0 endHook) src c = EStep.cont c' ∧
      c'.stack = ⟨g, some lhs, StVal.redV v⟩ :: c.stack.drop rhs.length ∧
      c'.stidx = g ∧ c'.tokens = c.tokens ∧ c'.tokidx = c.tokidx ∧
      c'.hook = c.hook ∧
      c'.rederr = some (Rederr.incomplete v) ∧
      (∀ tok', c'.tokens.get? c'.tokidx = some tok' →
        acceptTest (withSparserHooks P0 endHook) c' tok' = false →
        ((c'.cstack = [] →
          step (withSparserHooks P0 endHook) src c' = EStep.done Outcome.noneRes
            { c.hook with results := c.hook.results ++ [(some v, some tok'.pos, [])] }) ∧
         (∀ cr rest, c'.cstack = cr :: rest →
          step (withSparserHooks P0 endHook) src c' =
            resumeStep (withSparserHooks P0 endHook) cr rest
              { c.hook with results := c.hook.results ++ [(some v, some tok'.pos, [])] }))) := by
  have hnotpos : ¬ (0 < act) := by omega
  cases conf with
  | none =>
    have hstep : step (withSparserHooks P0 endHook) src c = EStep.cont
        { c with stack := (StEntry.mk g (some lhs) (StVal.redV v)) :: c.stack.drop rhs.length,
                 stidx := g, rederr := some (Rederr.incomplete v) } := by
      simp only [step, hget, hre, hact, applyAct, if_neg hnotpos, hrule, hf, hcall,
        pushReduce, htop, hgoto]
    refine ⟨_, hstep, rfl, rfl, rfl, rfl, rfl, rfl, ?_⟩
    intro tok' hget' hnacc'
    exact spIncompleteStuck P0 endHook src _ v tok' rfl hget' hnacc'
  | some a =>
    have hstep : step (withSparserHooks P0 endHook) src c = EStep.cont
        { c with cstack := captureRec (withSparserHooks P0 endHook) c a :: c.cstack,
                 stack := (StEntry.mk g (some lhs) (StVal.redV v)) :: c.stack.drop rhs.length,
                 stidx := g, rederr := some (Rederr.incomplete v) } := by
      simp only [step, hget, hre, hact, applyAct, if_neg hnotpos, hrule, hf, hcall,
        pushReduce, htop, hgoto]
    refine ⟨_, hstep, rfl, rfl, rfl, rfl, rfl, rfl, ?_⟩
    intro tok' hget' hnacc'
    exact spIncompleteStuck P0 endHook src _ v tok' rfl hget' hnacc'

theorem spec_C2_incomplete_reduction_witness :
    ∃ c', step exAInc "ab".toList exACfg1 = EStep.cont c' ∧
      c'.stack = ⟨4, some "Ap", StVal.redV "Ap?"⟩ ::
        exACfg1.stack.drop (["A"] : List String).length ∧
      c'.stidx = 4 ∧ c'.tokens = exACfg1.tokens ∧ c'.tokidx = exACfg1.tokidx ∧
      c'.hook = exACfg1.hook ∧
      c'.rederr = some (Rederr.incomplete "Ap?") ∧
      (∀ tok', c'.tokens.get? c'.tokidx = some tok' →
        acceptTest exAInc c' tok' = false →
        ((c'.cstack = [] →
          step exAInc "ab".toList c' = EStep.done Outcome.noneRes
            { exACfg1.hook with
              results := exACfg1.hook.results ++ [(some "Ap?", some tok'.pos, [])] }) ∧
         (∀ cr rest, c'.cstack = cr :: rest →
          step exAInc "ab".toList c' =
            resumeStep exAInc cr rest
              { exACfg1.hook with
                results := exACfg1.hook.results ++ [(some "Ap?", some tok'.pos, [])] }))) :=
  spec_C2_incomplete_reduction
    (mkEng String "S" exATermAct exAGoto exARules exARfIncomplete)
    (trivialEndHook String) "ab".toList exACfg1 tokB (-2) none "Ap" ["A"]
    (fun _ => RedRes.incomplete "Ap?") "Ap?" (initEntry String) 4
    rfl rfl rfl (by decide) rfl rfl rfl rfl rfl

/-- C2 counterexample to the claim as stated ("... continues parsing the
remaining tokens rather than aborting the branch"): in grammar ExA on input
`"ab"`, the reduction `Ap -> A` signals incomplete with placeholder
`"Ap?"`; the run then records `("Ap?", position 1, [])` and ends with no
further exploration — the token `b` at index 1 is never consumed (`tokidx`
never exceeds 1), i.e. the branch is aborted.  With a normally completing
callback the very same grammar and input parse to the end
(`("S", no error, [])`), showing that remaining-token parsing was possible
and was not performed. -/
theorem spec_C2_counterexample :
    run exAInc "ab".toList 30 (initConfig toksAB (initSpState String)) =
      RunRes.out Outcome.noneRes ⟨[(some "Ap?", some 1, [])], [], true, none⟩ ∧
    (traceN exAInc "ab".toList 30 (initConfig toksAB (initSpState String))).all
      (fun cf => cf.tokidx ≤ 1) = true ∧
    run exAOk "ab".toList 30 (initConfig toksAB (initSpState String)) =
      RunRes.out Outcome.noneRes ⟨[(some "S", none, [])], [], true, none⟩ :=
  ⟨by decide, by decide, by decide⟩

/-- `pushReduce` never touches the conflict stack. -/
theorem pushReduce_cstack {V E R : Type} (P : Eng V E R) (c : Config V E R)
    (lhs : String) (k : Nat) (v : V) (re : Option (Rederr V)) (c' : Config V E R)
    (h : pushReduce P c lhs k v re = EStep.cont c') : c'.cstack = c.cstack := by
  simp only [pushReduce] at h
  split at h
  · simp at h
  · split at h
    · simp at h
    · cases h
      rfl

/-- Dispatching an action never touches the conflict stack. -/
theorem applyAct_cstack {V E R : Type} (P : Eng V E R) (c : Config V E R)
    (tok : Tok) (act : Int) (c' : Config V E R)
    (h : applyAct P c tok act = EStep.cont c') : c'.cstack = c.cstack := by
  unfold applyAct at h
  split at h
  · cases h
    rfl
  · split at h
    · simp at h
    · split at h
      · simp at h
      · split at h
        · cases h
          rfl
        · exact pushReduce_cstack P c _ _ _ _ c' h
        · exact pushReduce_cstack P c _ _ _ _ c' h

/-- Resuming from a conflict record leaves exactly the records below it. -/
theorem resumeStep_cstack {V E R : Type} (P : Eng V E R) (cr : CRec V E)
    (rest : List (CRec V E)) (r' : R) (c2 : Config V E R)
    (h : resumeStep P cr rest r' = EStep.cont c2) : c2.cstack = rest := by
  simp only [resumeStep] at h
  split at h
  · simp at h
  · exact applyAct_cstack P _ _ _ c2 h

/-- The stuck block either keeps the conflict stack (error hook continues)
or pops exactly its top record. -/
theorem stuckStep_cstack {V E R : Type} (P : Eng V E R) (src : List Char)
    (c : Config V E R) (tok : Tok) (c' : Config V E R)
    (h : stuckStep P src c tok = EStep.cont c') :
    c'.cstack = c.cstack ∨ c'.cstack = c.cstack.tail := by
  simp only [stuckStep] at h
  split at h
  · -- acceptance branch
    split at h
    · split at h
      · -- redV value
        split at h
        · -- hasSuccess
          split at h
          · -- onSuccess asked to continue: match on the conflict stack
            split at h
            · simp at h
            · right
              rename_i cr rest hcs
              rw [hcs, resumeStep_cstack P _ _ _ c' h]
              rfl
          · simp at h
        · simp at h
      · simp at h
    · simp at h
  · -- stuck branch
    split at h
    · -- error hook continues
      cases h
      exact Or.inl rfl
    · split at h
      · -- empty conflict stack: both outcomes are returns
        split at h
        · simp at h
        · simp at h
      · right
        rename_i cr rest hcs
        rw [hcs, resumeStep_cstack P _ _ _ c' h]
        rfl

/-- C4: conflict records round-trip exactly.
(A) The record pushed before acting on the primary action of an ambiguous
cell captures precisely the current token sequence, token index, parse
stack, state index and extra state.
(B) Restoring a captured record reproduces exactly those five components
(the extra state via `setExtra` of the captured snapshot), whatever
happened to the live state in between — records are carried as immutable
values.
(B') When the engine falls back after a declined stuck condition it really
resumes from `resumeStep` on the top record, i.e. from the restored state.
(C) No step rewrites records below the top of the conflict stack: each
step pushes one record, pops one, or leaves the stack unchanged. -/
theorem spec_C4_conflict_roundtrip {V E R : Type} (P : Eng V E R) (src : List Char) :
    (∀ (c : Config V E R) tok act a c', c.rederr = none →
      c.tokens.get? c.tokidx = some tok →
      P.termAct c.stidx tok.kind = some (act, some a) →
      step P src c = EStep.cont c' →
      c'.cstack = captureRec P c a :: c.cstack ∧
      captureRec P c a = ⟨a, c.tokens, c.tokidx, c.stack, c.stidx, P.getExtra c.hook⟩) ∧
    (∀ (c : Config V E R) a rest r',
      (restoredConfig P (captureRec P c a) rest r').tokens = c.tokens ∧
      (restoredConfig P (captureRec P c a) rest r').tokidx = c.tokidx ∧
      (restoredConfig P (captureRec P c a) rest r').stack = c.stack ∧
      (restoredConfig P (captureRec P c a) rest r').stidx = c.stidx ∧
      (restoredConfig P (captureRec P c a) rest r').cstack = rest ∧
      (restoredConfig P (captureRec P c a) rest r').hook =
        P.setExtra (P.getExtra c.hook) r') ∧
    (∀ (c : Config V E R) tok ls r' cr rest,
      c.tokens.get? c.tokidx = some tok →
      (c.rederr.isSome = true ∨ P.termAct c.stidx tok.kind = none) →
      acceptTest P c tok = false →
      P.onError ⟨c.tokens, c.tokidx, c.stack, c.stidx, tok, c.rederr⟩ c.hook
        = (false, ls, r') →
      c.cstack = cr :: rest →
      step P src c = resumeStep P cr rest r') ∧
    (∀ (c : Config V E R) c', step P src c = EStep.cont c' →
      c'.cstack = c.cstack ∨ (∃ a, c'.cstack = captureRec P c a :: c.cstack) ∨
      c'.cstack = c.cstack.tail) := by
  refine ⟨?_, ?_, ?_, ?_⟩
  · intro c tok act a c' hre hget hact hstep
    simp only [step, hget, hre, hact] at hstep
    exact ⟨applyAct_cstack P _ tok act c' hstep, rfl⟩
  · intro c a rest r'
    exact ⟨rfl, rfl, rfl, rfl, rfl, rfl⟩
  · intro c tok ls r' cr rest hget hstuck hnacc herr hcs
    have hstep : step P src c = stuckStep P src c tok := by
      cases hre : c.rederr with
      | some e => simp only [step, hget, hre]
      | none =>
        rcases hstuck with hh | hh
        · rw [hre] at hh
          simp at hh
        · simp only [step, hget, hre, hh]
    rw [hstep]
    simp only [stuckStep, hnacc, Bool.false_eq_true, if_false, herr, hcs]
  · intro c c' hstep
    cases hget : c.tokens.get? c.tokidx with
    | none =>
      simp only [step, hget] at hstep
      exact EStep.noConfusion hstep
    | some tok =>
      cases hre : c.rederr with
      | some e =>
        simp only [step, hget, hre] at hstep
        rcases stuckStep_cstack P src c tok c' hstep with hh | hh
        · exact Or.inl hh
        · exact Or.inr (Or.inr hh)
      | none =>
        cases hact : P.termAct c.stidx tok.kind with
        | none =>
          simp only [step, hget, hre, hact] at hstep
          rcases stuckStep_cstack P src c tok c' hstep with hh | hh
          · exact Or.inl hh
          · exact Or.inr (Or.inr hh)
        | some p =>
          rcases p with ⟨act, conf⟩
          cases conf with
          | none =>
            simp only [step, hget, hre, hact] at hstep
            exact Or.inl (applyAct_cstack P c tok act c' hstep)
          | some a =>
            simp only [step, hget, hre, hact] at hstep
            exact Or.inr (Or.inl ⟨a, applyAct_cstack P _ tok act c' hstep⟩)

/-- A one-cell table with a conflict alternative: state 0 shifts `A` to 2
with alternative action `-9`. -/
def exCTermAct : Nat → String → Option (Int × Option Int)
  | 0, "A" => some (2, some (-9))
  | _, _ => none

def exC : Eng String SpExtra (SpState String) :=
  mkEng String "S" exCTermAct exAGoto exARules exARfOk

/-- Loop state at the conflict cell of `exC`. -/
def exCCfg : Config String SpExtra (SpState String) :=
  initConfig [tokA, endTok 1] (initSpState String)

/-- The successor of `exCCfg`: the conflict record pushed, then `A`
shifted. -/
def exCCfg' : Config String SpExtra (SpState String) :=
  ⟨[tokA, endTok 1], 1,
   [⟨-9, [tokA, endTok 1], 0, [initEntry String], 0, ([], true, none)⟩],
   [⟨2, some "A", StVal.tokV tokA⟩, initEntry String], 2, none, initSpState String⟩

/-- An arbitrary conflict record used to exercise the restore path. -/
def exCRec : CRec String SpExtra :=
  ⟨2, [tokA, endTok 1], 0, [initEntry String], 0, ([], true, none)⟩

/-- A stuck loop state of `exC` whose conflict stack holds `exCRec`. -/
def exCStuck : Config String SpExtra (SpState String) :=
  ⟨[tokB0, endTok 1], 0, [exCRec], [initEntry String], 0, none, initSpState String⟩

theorem spec_C4_conflict_roundtrip_witness :
    (exCCfg'.cstack = captureRec exC exCCfg (-9) :: exCCfg.cstack ∧
     captureRec exC exCCfg (-9) =
       ⟨-9, exCCfg.tokens, exCCfg.tokidx, exCCfg.stack, exCCfg.stidx,
        exC.getExtra exCCfg.hook⟩) ∧
    ((restoredConfig exC (captureRec exC exCCfg (-9)) [] (initSpState String)).tokens
        = exCCfg.tokens ∧
     (restoredConfig exC (captureRec exC exCCfg (-9)) [] (initSpState String)).tokidx
        = exCCfg.tokidx ∧
     (restoredConfig exC (captureRec exC exCCfg (-9)) [] (initSpState String)).stack
        = exCCfg.stack ∧
     (restoredConfig exC (captureRec exC exCCfg (-9)) [] (initSpState String)).stidx
        = exCCfg.stidx ∧
     (restoredConfig exC (captureRec exC exCCfg (-9)) [] (initSpState String)).cstack
        = [] ∧
     (restoredConfig exC (captureRec exC exCCfg (-9)) [] (initSpState String)).hook
        = exC.setExtra (exC.getExtra exCCfg.hook) (initSpState String)) ∧
    (step exC "a".toList exCStuck = resumeStep exC exCRec [] (initSpState String)) ∧
    (exCCfg'.cstack = exCCfg.cstack ∨
     (∃ a, exCCfg'.cstack = captureRec exC exCCfg a :: exCCfg.cstack) ∨
     exCCfg'.cstack = exCCfg.cstack.tail) :=
  ⟨(spec_C4_conflict_roundtrip exC "a".toList).1 exCCfg tokA 2 (-9) exCCfg'
     rfl rfl rfl (by decide),
   (spec_C4_conflict_roundtrip exC "a".toList).2.1 exCCfg (-9) [] (initSpState String),
   (spec_C4_conflict_roundtrip exC "a".toList).2.2.1 exCStuck tokB0
     ⟨[tokB0, endTok 1], 0, [initEntry String], 0⟩ (initSpState String) exCRec []
     rfl (Or.inr rfl) rfl rfl rfl,
   (spec_C4_conflict_roundtrip exC "a".toList).2.2.2 exCCfg exCCfg' (by decide)⟩

/-- C6: the engine records a successful result exactly at the spec's
acceptance configurations.  `accepts` is the executed condition (the stuck
block is entered and the acceptance test holds); `specAccept` is the
claim's condition (current token `$end`, stack exactly
`[initial state-0 entry, nonterminal]`, nonterminal = top symbol).  The
hypotheses are facts of the real grammar tables and reachability
invariants: the accept state has no `$end` action (true of the shipped
tables, whose goto (0, expr_commas) = 1 and whose state 1 row holds only
COLON); the stack bottom is the initial entry; `stidx` mirrors the stack
top; and a height-2 top-symbol entry was produced by the reduction goto
from state 0, so its state is 1 and it carries a reduction value.  The
second conjunct evidences that acceptance really returns the accepted
value in no-override mode. -/
theorem spec_C6_acceptance {V E R : Type} (P : Eng V E R) (c : Config V E R)
    (htab : P.termAct 1 "$end" = none)
    (hbot : c.stack.getLast? = some (initEntry V))
    (hsidx : ∀ e, c.stack.head? = some e → c.stidx = e.idx)
    (htopent : ∀ e, c.stack.head? = some e → e.sym = some P.topSym →
      c.stack.length = 2 → e.idx = 1 ∧ ∃ v, e.val = StVal.redV v) :
    (accepts P c ↔ specAccept P c) ∧
    (∀ src, accepts P c → P.hasSuccess = false →
      ∃ v, step P src c = EStep.done (Outcome.val v) c.hook) := by
  constructor
  · constructor
    · intro hacc
      cases hget : c.tokens.get? c.tokidx with
      | none => simp only [accepts, hget] at hacc
      | some tok =>
        simp only [accepts, hget] at hacc
        obtain ⟨hstuck, htest⟩ := hacc
        simp only [acceptTest, Bool.and_eq_true, beq_iff_eq] at htest
        obtain ⟨⟨⟨hk, hs1⟩, hl⟩, hmatch⟩ := htest
        obtain ⟨e1, e2, hstack⟩ := List.length_eq_two.mp hl
        have hhead : c.stack.head? = some e1 := by
          rw [hstack]
          rfl
        rw [hhead] at hmatch
        simp only [beq_iff_eq] at hmatch
        have hbot' : e2 = initEntry V := by
          rw [hstack] at hbot
          simpa using hbot
        obtain ⟨hidx, v, hv⟩ := htopent e1 hhead hmatch hl
        refine ⟨⟨tok, hget, hk⟩, e1, v, ?_, hmatch, hv⟩
        rw [hstack, hbot']
    · intro hspec
      obtain ⟨⟨tok', hget', hk⟩, e, v, hstack, hsym, hval⟩ := hspec
      have hhead : c.stack.head? = some e := by
        rw [hstack]
        rfl
      have hlen : c.stack.length = 2 := by
        rw [hstack]
        rfl
      obtain ⟨hidx, -⟩ := htopent e hhead hsym hlen
      have hs1 : c.stidx = 1 := by rw [hsidx e hhead, hidx]
      simp only [accepts, hget']
      refine ⟨Or.inr ?_, ?_⟩
      · rw [hs1, hk]
        exact htab
      · simp [acceptTest, hk, hs1, hlen, hhead, hsym]
  · intro src hacc hns
    cases hget : c.tokens.get? c.tokidx with
    | none => simp only [accepts, hget] at hacc
    | some tok =>
      simp only [accepts, hget] at hacc
      obtain ⟨hstuck, htest⟩ := hacc
      have htest' := htest
      simp only [acceptTest, Bool.and_eq_true, beq_iff_eq] at htest'
      obtain ⟨⟨⟨hk, hs1⟩, hl⟩, hmatch⟩ := htest'
      obtain ⟨e1, e2, hstack⟩ := List.length_eq_two.mp hl
      have hhead : c.stack.head? = some e1 := by
        rw [hstack]
        rfl
      rw [hhead] at hmatch
      simp only [beq_iff_eq] at hmatch
      obtain ⟨hidx, v, hv⟩ := htopent e1 hhead hmatch hl
      have hstep : step P src c = stuckStep P src c tok := by
        cases hre : c.rederr with
        | some e => simp only [step, hget, hre]
        | none =>
          rcases hstuck with hh | hh
          · rw [hre] at hh
            simp at hh
          · simp only [step, hget, hre, hh]
      rw [hstep]
      refine ⟨v, ?_⟩
      simp only [stuckStep, htest, if_true, hhead, hv, hns, Bool.false_eq_true, if_false]

/-- ExB with the base-class hooks (strict mode). -/
def exBStrict : Eng String SpExtra (SpState String) :=
  mkEng String "S" exBTermAct exBGoto exBRules exBRf

/-- The accepting loop state of ExB on input `"a"`: `S` reduced, lookahead
`$end`. -/
def exBAccept : Config String SpExtra (SpState String) :=
  ⟨[⟨"A", "a", 0, []⟩, endTok 1], 1, [], [⟨1, some "S", StVal.redV "S"⟩, initEntry String],
   1, none, initSpState String⟩

theorem spec_C6_acceptance_witness :
    (accepts exBStrict exBAccept ↔ specAccept exBStrict exBAccept) ∧
    (∃ v, step exBStrict "a".toList exBAccept =
      EStep.done (Outcome.val v) exBAccept.hook) := by
  have hsidx : ∀ e, exBAccept.stack.head? = some e → exBAccept.stidx = e.idx := by
    intro e he
    obtain rfl := Option.some.inj he
    rfl
  have htopent : ∀ e, exBAccept.stack.head? = some e → e.sym = some exBStrict.topSym →
      exBAccept.stack.length = 2 → e.idx = 1 ∧ ∃ v, e.val = StVal.redV v := by
    intro e he _ _
    obtain rfl := Option.some.inj he
    exact ⟨rfl, "S", rfl⟩
  have hmain := spec_C6_acceptance exBStrict exBAccept rfl rfl hsidx htopent
  refine ⟨hmain.1, hmain.2 "a".toList ⟨Or.inr rfl, rfl⟩ rfl⟩

/-- Dispatching an action never returns from `parse`. -/
theorem applyAct_not_done {V E R : Type} (P : Eng V E R) (c : Config V E R)
    (tok : Tok) (act : Int) (o : Outcome V) (r : R)
    (h : applyAct P c tok act = EStep.done o r) : False := by
  unfold applyAct at h
  split at h
  · simp at h
  · split at h
    · simp at h
    · split at h
      · simp at h
      · split at h
        · simp at h
        · simp only [pushReduce] at h
          split at h
          · simp at h
          · split at h
            · simp at h
            · simp at h
        · simp only [pushReduce] at h
          split at h
          · simp at h
          · split at h
            · simp at h
            · simp at h

/-- Resuming a conflict record never returns from `parse`. -/
theorem resumeStep_not_done {V E R : Type} (P : Eng V E R) (cr : CRec V E)
    (rest : List (CRec V E)) (r' : R) (o : Outcome V) (r : R)
    (h : resumeStep P cr rest r' = EStep.done o r) : False := by
  simp only [resumeStep] at h
  split at h
  · simp at h
  · exact applyAct_not_done P _ _ _ o r h

/-- With `parse_success` overridden, every return of the stuck block is
`None`. -/
theorem stuckStep_done_noneRes {V E R : Type} (P : Eng V E R) (src : List Char)
    (c : Config V E R) (tok : Tok) (o : Outcome V) (r : R)
    (hs : P.hasSuccess = true)
    (h : stuckStep P src c tok = EStep.done o r) : o = Outcome.noneRes := by
  simp only [stuckStep, hs, if_true] at h
  split at h
  · split at h
    · split at h
      · split at h
        · split at h
          · simp at h
            exact h.1.symm
          · exact absurd h (by intro hh; exact resumeStep_not_done P _ _ _ o r hh)
        · cases h
          rfl
      · simp at h
    · simp at h
  · split at h
    · simp at h
    · split at h
      · cases h
        rfl
      · exact absurd h (by intro hh; exact resumeStep_not_done P _ _ _ o r hh)

/-- With `parse_success` overridden, every return of one loop step is
`None`. -/
theorem step_done_noneRes {V E R : Type} (P : Eng V E R) (src : List Char)
    (c : Config V E R) (o : Outcome V) (r : R)
    (hs : P.hasSuccess = true)
    (h : step P src c = EStep.done o r) : o = Outcome.noneRes := by
  cases hget : c.tokens.get? c.tokidx with
  | none =>
    simp only [step, hget] at h
    exact EStep.noConfusion h
  | some tok =>
    cases hre : c.rederr with
    | some e =>
      simp only [step, hget, hre] at h
      exact stuckStep_done_noneRes P src c tok o r hs h
    | none =>
      cases hact : P.termAct c.stidx tok.kind with
      | none =>
        simp only [step, hget, hre, hact] at h
        exact stuckStep_done_noneRes P src c tok o r hs h
      | some p =>
        rcases p with ⟨act, conf⟩
        cases conf with
        | none =>
          simp only [step, hget, hre, hact] at h
          exact absurd h (by intro hh; exact applyAct_not_done P _ _ _ o r hh)
        | some a =>
          simp only [step, hget, hre, hact] at h
          exact absurd h (by intro hh; exact applyAct_not_done P _ _ _ o r hh)

/-- C10: the base engine's `parse` returns the accepted reduction value
directly only when the caller did not override `parse_success`
(`hasSuccess = false`); whenever `parse_success` is overridden, `parse`
returns `None` on every terminating path — acceptance, exhaustion of all
conflict branches, and a success hook that declines further exploration —
so results then flow only through the hooks, never through the return
value. -/
theorem spec_C10_return_mode {V E R : Type} (P : Eng V E R) (src : List Char) :
    (P.hasSuccess = true → ∀ fuel (c : Config V E R) o r,
      run P src fuel c = RunRes.out o r → o = Outcome.noneRes) ∧
    (∀ (c : Config V E R) tok e v, P.hasSuccess = false →
      c.tokens.get? c.tokidx = some tok →
      (c.rederr.isSome = true ∨ P.termAct c.stidx tok.kind = none) →
      acceptTest P c tok = true →
      c.stack.head? = some e → e.val = StVal.redV v →
      step P src c = EStep.done (Outcome.val v) c.hook) := by
  constructor
  · intro hs fuel
    induction fuel with
    | zero =>
      intro c o r h
      simp [run] at h
    | succ n ih =>
      intro c o r h
      rw [run] at h
      cases hstep : step P src c with
      | cont c' =>
        rw [hstep] at h
        exact ih c' o r h
      | done o' r' =>
        rw [hstep] at h
        injection h with h1 h2
        rw [← h1]
        exact step_done_noneRes P src c o' r' hs hstep
      | crash =>
        rw [hstep] at h
        exact RunRes.noConfusion h
  · intro c tok e v hns hget hstuck htest hhead hval
    have hstep : step P src c = stuckStep P src c tok := by
      cases hre : c.rederr with
      | some er => simp only [step, hget, hre]
      | none =>
        rcases hstuck with hh | hh
        · rw [hre] at hh
          simp at hh
        · simp only [step, hget, hre, hh]
    rw [hstep]
    simp only [stuckStep, htest, if_true, hhead, hval, hns, Bool.false_eq_true, if_false]

theorem spec_C10_return_mode_witness :
    Outcome.noneRes = (Outcome.noneRes : Outcome String) ∧
    step exBStrict "a".toList exBAccept =
      EStep.done (Outcome.val "S") exBAccept.hook :=
  ⟨(spec_C10_return_mode exAInc "ab".toList).1 rfl 30
     (initConfig toksAB (initSpState String)) Outcome.noneRes
     ⟨[(some "Ap?", some 1, [])], [], true, none⟩ (by decide),
   (spec_C10_return_mode exBStrict "a".toList).2 exBAccept (endTok 1)
     ⟨1, some "S", StVal.redV "S"⟩ "S" rfl rfl (Or.inr rfl) (by decide) rfl rfl⟩

/-! ### Ranker lemmas -/

theorem isNone_lt_iff {V : Type} (o1 o2 : Option V) :
    (o1.isNone < o2.isNone) ↔ (o1 ≠ none ∧ o2 = none) := by
  cases o1 <;> cases o2 <;> simp [Bool.lt_iff]

theorem isNone_eq_iff {V : Type} (o1 o2 : Option V) :
    (o1.isNone = o2.isNone) ↔ (o1 = none ↔ o2 = none) := by
  cases o1 <;> cases o2 <;> simp

theorem negErr_lt_iff (e1 e2 : Option Nat) :
    negErr e1 < negErr e2 ↔ specErrVal e2 < specErrVal e1 := by
  cases e1 <;> cases e2 <;>
    simp [negErr, specErrVal, WithBot.bot_lt_coe, WithTop.coe_lt_top]

theorem negErr_eq_iff (e1 e2 : Option Nat) :
    negErr e1 = negErr e2 ↔ e1 = e2 := by
  cases e1 <;> cases e2 <;> simp [negErr]

theorem specErrVal_eq_iff (e1 e2 : Option Nat) :
    specErrVal e1 = specErrVal e2 ↔ e1 = e2 := by
  cases e1 <;> cases e2 <;> simp [specErrVal]

/-- C1 core bridge: the spec's four-rule preference order is exactly the
strict order of the python sort keys. -/
theorem specPrefer_iff_keyLt {V : Type} (x y : Nat × Triple V) :
    specPrefer x y ↔ pyKey x < pyKey y := by
  unfold pyKey specPrefer
  rw [Prod.Lex.lt_iff, Prod.Lex.lt_iff, Prod.Lex.lt_iff]
  rw [isNone_lt_iff, isNone_eq_iff, negErr_lt_iff, negErr_eq_iff, specErrVal_eq_iff]

theorem pyKey_fst_eq {V : Type} {x y : Nat × Triple V} (h : pyKey x = pyKey y) :
    x.1 = y.1 :=
  congrArg (fun z => (ofLex (ofLex (ofLex z).2).2).2) h

/-- The fold of `pickMin` selects a minimum of the start element and the
list. -/
theorem foldl_pick_le {V : Type} (xs : List (Nat × Triple V)) (x : Nat × Triple V) :
    ∀ z, (z = x ∨ z ∈ xs) →
      pyKey (xs.foldl (fun acc y => if pyKey y < pyKey acc then y else acc) x) ≤
        pyKey z := by
  induction xs generalizing x with
  | nil =>
    intro z hz
    rcases hz with rfl | hz
    · exact le_refl _
    · simp at hz
  | cons y ys ih =>
    intro z hz
    have hstep : (y :: ys).foldl (fun acc y => if pyKey y < pyKey acc then y else acc) x =
        ys.foldl (fun acc y => if pyKey y < pyKey acc then y else acc)
          (if pyKey y < pyKey x then y else x) := rfl
    rw [hstep]
    by_cases hyx : pyKey y < pyKey x
    · rw [if_pos hyx]
      rcases hz with hzx | hz
      · rw [hzx]
        exact le_trans (ih y y (Or.inl rfl)) (le_of_lt hyx)
      · rcases List.mem_cons.mp hz with hzy | hz
        · rw [hzy]
          exact ih y y (Or.inl rfl)
        · exact ih y z (Or.inr hz)
    · rw [if_neg hyx]
      rcases hz with hzx | hz
      · rw [hzx]
        exact ih x x (Or.inl rfl)
      · rcases List.mem_cons.mp hz with hzy | hz
        · rw [hzy]
          exact le_trans (ih x x (Or.inl rfl)) (not_lt.mp hyx)
        · exact ih x z (Or.inr hz)

/-- The fold of `pickMin` returns an element of the inputs. -/
theorem foldl_pick_mem {V : Type} (xs : List (Nat × Triple V)) (x : Nat × Triple V) :
    xs.foldl (fun acc y => if pyKey y < pyKey acc then y else acc) x = x ∨
      xs.foldl (fun acc y => if pyKey y < pyKey acc then y else acc) x ∈ xs := by
  induction xs generalizing x with
  | nil => exact Or.inl rfl
  | cons y ys ih =>
    have hstep : (y :: ys).foldl (fun acc y => if pyKey y < pyKey acc then y else acc) x =
        ys.foldl (fun acc y => if pyKey y < pyKey acc then y else acc)
          (if pyKey y < pyKey x then y else x) := rfl
    rw [hstep]
    by_cases hyx : pyKey y < pyKey x
    · rw [if_pos hyx]
      rcases ih y with hh | hh
      · exact Or.inr (by rw [hh]; exact List.mem_cons_self y ys)
      · exact Or.inr (List.mem_cons_of_mem y hh)
    · rw [if_neg hyx]
      rcases ih x with hh | hh
      · exact Or.inl hh
      · exact Or.inr (List.mem_cons_of_mem y hh)

theorem pickMin_spec {V : Type} (l : List (Nat × Triple V)) (m : Nat × Triple V)
    (h : pickMin l = some m) : m ∈ l ∧ ∀ z ∈ l, pyKey m ≤ pyKey z := by
  cases l with
  | nil => simp [pickMin] at h
  | cons x xs =>
    simp only [pickMin, Option.some.injEq] at h
    constructor
    · rcases foldl_pick_mem xs x with hh | hh
      · rw [← h, hh]
        exact List.mem_cons_self x xs
      · rw [← h]
        exact List.mem_cons_of_mem x hh
    · intro z hz
      rw [← h]
      rcases List.mem_cons.mp hz with hzx | hz
      · rw [hzx]
        exact foldl_pick_le xs x x (Or.inl rfl)
      · exact foldl_pick_le xs x z (Or.inr hz)

/-- C1: the result ranker selects by the spec's lexicographic order —
non-none value first, then largest error position (`none` = end of input
greatest), then fewer suggestions, then earliest exploration index — and
in particular between two non-none-valued branches the one with the larger
error position is selected. -/
theorem spec_C1_ranker {V : Type} :
    (∀ (rs : List (Triple V)) sel, rank rs = some sel →
      ∃ i, (i, sel) ∈ rs.enum ∧
        ∀ jt ∈ rs.enum, jt ≠ (i, sel) → specPrefer (i, sel) jt) ∧
    (∀ (a b : V) (eA eB : Nat) (sa sb : List String), eB < eA →
      rank [(some a, some eA, sa), (some b, some eB, sb)] =
        some (some a, some eA, sa)) := by
  constructor
  · intro rs sel h
    cases hp : pickMin rs.enum with
    | none => simp [rank, hp] at h
    | some m =>
      have hm : m.2 = sel := by simpa [rank, hp] using h
      obtain ⟨hmem, hmin⟩ := pickMin_spec rs.enum m hp
      refine ⟨m.1, ?_, ?_⟩
      · rw [← hm]
        exact hmem
      · intro jt hjt hne
        rw [← hm]
        rw [show ((m.1, m.2) : Nat × Triple V) = m from rfl]
        rw [specPrefer_iff_keyLt]
        rcases lt_or_eq_of_le (hmin jt hjt) with hlt | heq
        · exact hlt
        · exfalso
          apply hne
          have hfst : m.1 = jt.1 := pyKey_fst_eq heq.symm ▸ rfl
          have h1 : rs[m.1]? = some m.2 := List.mem_enum_iff_getElem?.mp hmem
          have h2 : rs[jt.1]? = some jt.2 := List.mem_enum_iff_getElem?.mp hjt
          have hsnd : jt.2 = m.2 := by
            rw [← hfst] at h2
            rw [h1] at h2
            exact (Option.some.inj h2).symm
          rw [← hm]
          rw [show jt = (jt.1, jt.2) from rfl, hsnd, hfst]
  · intro a b eA eB sa sb hlt
    have hnot : ¬ (pyKey ((1 : Nat), ((some b, some eB, sb) : Triple V)) <
        pyKey ((0 : Nat), ((some a, some eA, sa) : Triple V))) := by
      rw [← specPrefer_iff_keyLt]
      intro hcon
      rcases hcon with ⟨h1, h2⟩ | ⟨h1, h2 | ⟨h2, h3⟩⟩
      · exact Option.noConfusion h2
      · simp [specErrVal] at h2
        omega
      · simp [specErrVal] at h2
        omega
    simp only [rank, pickMin, List.enum, List.enumFrom, List.foldl, hnot, if_false]
    rfl

/-- A concrete `parse_results` list: two valued triples with different
error positions and one unvalued triple. -/
def exRank : List (Triple String) :=
  [(some "a", some 3, []), (some "b", some 5, []), (none, none, [])]

theorem spec_C1_ranker_witness :
    (∃ i, (i, ((some "b", some 5, []) : Triple String)) ∈ exRank.enum ∧
      ∀ jt ∈ exRank.enum, jt ≠ (i, (some "b", some 5, [])) →
        specPrefer (i, (some "b", some 5, [])) jt) ∧
    rank [((some "x", some 7, ["s"]) : Triple String), (some "y", some 2, [])] =
      some (some "x", some 7, ["s"]) :=
  ⟨spec_C1_ranker.1 exRank (some "b", some 5, []) (by decide),
   spec_C1_ranker.2 "x" "y" 7 2 ["s"] [] (by decide)⟩

/-- If some branch recorded a value with no error and no suggestions, the
ranked best triple also has a value, no error, and no suggestions. -/
theorem rank_clean_entry {V : Type} (rs : List (Triple V)) (v : V)
    (hmem : (some v, (none : Option Nat), ([] : List String)) ∈ rs) :
    ∃ v', rank rs = some (some v', (none : Option Nat), ([] : List String)) := by
  obtain ⟨i, hi, hrs⟩ := List.mem_iff_getElem.mp hmem
  have hienum : (i, ((some v, (none : Option Nat), ([] : List String)) : Triple V)) ∈
      rs.enum := by
    apply List.mem_enum_iff_getElem?.mpr
    simp [List.getElem?_eq_getElem hi, hrs]
  have hpick : ∃ m, pickMin rs.enum = some m := by
    cases he : rs.enum with
    | nil => exact absurd he (List.ne_nil_of_mem hienum)
    | cons a as => exact ⟨_, rfl⟩
  obtain ⟨m, hm⟩ := hpick
  obtain ⟨hmmem, hmin⟩ := pickMin_spec rs.enum m hm
  have hnotlt : ¬ (pyKey (i, ((some v, (none : Option Nat), ([] : List String)) : Triple V))
      < pyKey m) := not_lt.mpr (hmin _ hienum)
  obtain ⟨j, mv, me, ma⟩ := m
  have hmv : ∃ w, mv = some w := by
    cases hmv0 : mv with
    | none =>
      exfalso
      apply hnotlt
      rw [← specPrefer_iff_keyLt]
      exact Or.inl ⟨by simp, by simp [hmv0]⟩
    | some w => exact ⟨w, rfl⟩
  obtain ⟨w, rfl⟩ := hmv
  have hme : me = none := by
    cases hme0 : me with
    | none => rfl
    | some x =>
      exfalso
      apply hnotlt
      rw [← specPrefer_iff_keyLt]
      refine Or.inr ⟨by simp, Or.inl ?_⟩
      rw [hme0]
      simp [specErrVal]
  have hma : ma = [] := by
    cases hma0 : ma with
    | nil => rfl
    | cons s ss =>
      exfalso
      apply hnotlt
      rw [← specPrefer_iff_keyLt]
      refine Or.inr ⟨by simp, Or.inr ⟨by rw [hme], Or.inl ?_⟩⟩
      rw [hma0]
      simp
  refine ⟨w, ?_⟩
  rw [rank, hm]
  simp [hme, hma]

/-- C8 (amended): for input text whose tokenization has no error token and
which the grammar accepts with no error-hook insertion and no incomplete
reduction on the accepted branch, the accepted branch records the clean
entry `(value, none, [])` (second conjunct: that is what `parse_success`
appends when `erridx` is `none` and `autocomplete` is empty), and
end-to-end `parse` then returns a triple with a non-none value, error
position `none` — the "no error" marker, ranked as greater than every
actual position, i.e. effectively end of input, but not the numeric
end-of-input position — and an empty suggestion list. -/
theorem spec_C8_totality {V : Type} (P : Eng V SpExtra (SpState V))
    (pats : List TokPat) (rc : V → V) (varNull : V) (fuel : Nat)
    (carry : SpState V) (src : List Char) (o : Outcome V) (r : SpState V) (v : V)
    (hblank : isBlank src = false)
    (hrun : run P src fuel (initConfig (tokenize pats src) (initSpState V)) =
      RunRes.out o r)
    (hmem : (some v, (none : Option Nat), ([] : List String)) ∈ r.results) :
    (∃ v', sparserParse P pats rc varNull fuel carry src =
      some (some v', (none : Option Nat), ([] : List String))) ∧
    (∀ (v0 : V) (r0 : SpState V),
      (spOnSuccess v0 { r0 with erridx := none, autocomplete := [] }).2.results =
        r0.results ++ [(some v0, (none : Option Nat), ([] : List String))]) := by
  refine ⟨?_, fun v0 r0 => rfl⟩
  obtain ⟨v', hsel⟩ := rank_clean_entry r.results v hmem
  refine ⟨rc v', ?_⟩
  simp only [sparserParse, sparserParseSt, hblank, Bool.false_eq_true, if_false, hrun]
  cases hres : r.results with
  | nil =>
    rw [hres] at hmem
    simp at hmem
  | cons t ts =>
    rw [hres] at hsel
    simp only [hsel, Option.map_some', finalizeRes]

theorem spec_C8_totality_witness :
    (∃ v', sparserParse exB [patA] id "NULL" 30 (initSpState String) "a".toList =
      some (some v', (none : Option Nat), ([] : List String))) ∧
    (∀ (v0 : String) (r0 : SpState String),
      (spOnSuccess v0 { r0 with erridx := none, autocomplete := [] }).2.results =
        r0.results ++ [(some v0, (none : Option Nat), ([] : List String))]) :=
  spec_C8_totality exB [patA] id "NULL" 30 (initSpState String) "a".toList
    Outcome.noneRes ⟨[(some "S", none, [])], [], true, none⟩ "S"
    (by decide) (by decide) (by decide)

/-- C8 counterexample to the claim as stated: for grammar ExB and the
clean, fully accepted input `"a"`, the end-to-end parse returns error
position `none` (the "no error" marker), not the end-of-input position
`some 1` the claim requires. -/
theorem spec_C8_counterexample :
    sparserParse exB [patA] id "NULL" 30 (initSpState String) "a".toList =
      some (some "S", none, []) ∧
    (none : Option Nat) ≠ some ("a".toList.length) :=
  ⟨by decide, by decide⟩

/-- C9: with the grammar tables and hooks fixed, `sparser.Parser.parse` is
a pure function of the input text.  The mutable instance fields
(`parse_results`, `autocomplete`, `autocompleting`, `erridx`) are
reassigned at the top of every call before any use, so the returned triple
does not depend on the instance state left behind by earlier calls: two
calls with identical text agree whatever the carried state (first
conjunct), and in particular running some other parse first and feeding
its final instance state into a second call does not change the second
call's result (second conjunct). -/
theorem spec_C9_determinism {V : Type} (P : Eng V SpExtra (SpState V))
    (pats : List TokPat) (rc : V → V) (varNull : V) (fuel : Nat) :
    (∀ (carry1 carry2 : SpState V) (src : List Char),
      sparserParse P pats rc varNull fuel carry1 src =
        sparserParse P pats rc varNull fuel carry2 src) ∧
    (∀ (carry : SpState V) (src1 src2 : List Char),
      sparserParse P pats rc varNull fuel
        (sparserParseSt P pats rc varNull fuel carry src1).2 src2 =
      sparserParse P pats rc varNull fuel carry src2) := by
  have h1 : ∀ (carry1 carry2 : SpState V) (src : List Char),
      sparserParse P pats rc varNull fuel carry1 src =
        sparserParse P pats rc varNull fuel carry2 src := by
    intro c1 c2 src
    by_cases hb : isBlank src = true
    · simp [sparserParse, sparserParseSt, hb]
    · rw [Bool.not_eq_true] at hb
      simp [sparserParse, sparserParseSt, hb]
  exact ⟨h1, fun carry src1 src2 => h1 _ carry src2⟩

/-! ### Lexer lemmas -/

/-- Pattern-table sanity at one position: a successful match consumes at
least one character (python would otherwise loop forever) and stays within
the text (guaranteed by `re`). -/
def matchOkAt (pats : List TokPat) (s : List Char) (pos : Nat) : Bool :=
  match firstMatch pats s pos with
  | some (_, len, _) => decide (1 ≤ len) && decide (pos + len ≤ s.length)
  | none => true

theorem firstMatch_mem (pats : List TokPat) (s : List Char) (pos : Nat)
    (name : String) (len : Nat) (grps : List (Option String))
    (h : firstMatch pats s pos = some (name, len, grps)) :
    ∃ p ∈ pats, p.name = name := by
  induction pats with
  | nil => simp [firstMatch] at h
  | cons p rest ih =>
    rw [firstMatch] at h
    cases hm : p.mtch s pos with
    | some r =>
      rw [hm] at h
      refine ⟨p, List.mem_cons_self p rest, ?_⟩
      exact congrArg Prod.fst (Option.some.inj h)
    | none =>
      rw [hm] at h
      obtain ⟨q, hq, hqn⟩ := ih h
      exact ⟨q, List.mem_cons_of_mem p hq, hqn⟩

theorem tokenizeAux_spec (pats : List TokPat) (s : List Char)
    (hwf : ∀ pos, pos < s.length → matchOkAt pats s pos = true)
    (hn : ∀ p ∈ pats, p.name ≠ "$end" ∧ p.name ≠ "$err") :
    ∀ fuel pos, pos ≤ s.length → s.length - pos < fuel →
      (∃ q ts, tokenizeAux pats s fuel pos = ts ++ [endTok q] ∧
        ∀ t ∈ ts, t.kind ≠ "$end") ∧
      (∀ t ∈ tokenizeAux pats s fuel pos, t.kind ≠ "ignore") ∧
      (∀ t ∈ tokenizeAux pats s fuel pos, t.kind = "$err" →
        firstMatch pats s t.pos = none ∧
        ∃ ts0, tokenizeAux pats s fuel pos =
          ts0 ++ [⟨"$err", subText s t.pos 1, t.pos, []⟩, endTok t.pos]) ∧
      (∀ t ∈ tokenizeAux pats s fuel pos, t.kind ≠ "$err" → t.kind ≠ "$end" →
        ∃ len grps, firstMatch pats s t.pos = some (t.kind, len, grps) ∧
          t = ⟨t.kind, subText s t.pos len, t.pos, grps⟩) := by
  intro fuel
  induction fuel with
  | zero =>
    intro pos hle hfuel
    omega
  | succ n ih =>
    intro pos hle hfuel
    by_cases hpos : pos < s.length
    · cases hfm : firstMatch pats s pos with
      | none =>
        have hr : tokenizeAux pats s (n + 1) pos =
            [⟨"$err", subText s pos 1, pos, []⟩, endTok pos] := by
          simp only [tokenizeAux, if_pos hpos, hfm]
        rw [hr]
        refine ⟨⟨pos, [⟨"$err", subText s pos 1, pos, []⟩], rfl, ?_⟩, ?_, ?_, ?_⟩
        · intro t ht
          rw [List.mem_singleton.mp ht]
          simp
        · intro t ht
          rcases List.mem_cons.mp ht with rfl | ht
          · simp
          · rw [List.mem_singleton.mp ht]
            simp [endTok]
        · intro t ht htk
          rcases List.mem_cons.mp ht with rfl | ht
          · exact ⟨hfm, [], rfl⟩
          · rw [List.mem_singleton.mp ht] at htk
            simp [endTok] at htk
        · intro t ht htk1 htk2
          rcases List.mem_cons.mp ht with rfl | ht
          · simp at htk1
          · rw [List.mem_singleton.mp ht] at htk2
            simp [endTok] at htk2
      | some r =>
        obtain ⟨name, len, grps⟩ := r
        have hb : 1 ≤ len ∧ pos + len ≤ s.length := by
          have hh := hwf pos hpos
          simp only [matchOkAt, hfm, Bool.and_eq_true, decide_eq_true_eq] at hh
          exact hh
        obtain ⟨ihend, ihig, iherr, ihord⟩ := ih (pos + len) (by omega) (by omega)
        by_cases hname : name = "ignore"
        · have hr : tokenizeAux pats s (n + 1) pos = tokenizeAux pats s n (pos + len) := by
            simp only [tokenizeAux, if_pos hpos, hfm, if_pos hname]
          rw [hr]
          exact ⟨ihend, ihig, iherr, ihord⟩
        · have hr : tokenizeAux pats s (n + 1) pos =
              ⟨name, subText s pos len, pos, grps⟩ :: tokenizeAux pats s n (pos + len) := by
            simp only [tokenizeAux, if_pos hpos, hfm, if_neg hname]
          obtain ⟨pp, hpp, hppn⟩ := firstMatch_mem pats s pos name len grps hfm
          obtain ⟨hne, hnr⟩ := hn pp hpp
          rw [hppn] at hne hnr
          rw [hr]
          obtain ⟨q, ts, hts, htsk⟩ := ihend
          refine ⟨⟨q, ⟨name, subText s pos len, pos, grps⟩ :: ts, ?_, ?_⟩, ?_, ?_, ?_⟩
          · rw [hts]
            rfl
          · intro t ht
            rcases List.mem_cons.mp ht with rfl | ht
            · exact hne
            · exact htsk t ht
          · intro t ht
            rcases List.mem_cons.mp ht with rfl | ht
            · exact hname
            · exact ihig t ht
          · intro t ht htk
            rcases List.mem_cons.mp ht with rfl | ht
            · exact absurd htk hnr
            · obtain ⟨hfm', ts0, hts0⟩ := iherr t ht htk
              refine ⟨hfm', ⟨name, subText s pos len, pos, grps⟩ :: ts0, ?_⟩
              rw [hts0]
              rfl
          · intro t ht htk1 htk2
            rcases List.mem_cons.mp ht with rfl | ht
            · exact ⟨len, grps, hfm, rfl⟩
            · exact ihord t ht htk1 htk2
    · have hr : tokenizeAux pats s (n + 1) pos = [endTok pos] := by
        simp only [tokenizeAux, if_neg hpos]
      rw [hr]
      refine ⟨⟨pos, [], rfl, by simp⟩, ?_, ?_, ?_⟩
      · intro t ht
        rw [List.mem_singleton.mp ht]
        simp [endTok]
      · intro t ht htk
        rw [List.mem_singleton.mp ht] at htk
        simp [endTok] at htk
      · intro t ht htk1 htk2
        rw [List.mem_singleton.mp ht] at htk2
        simp [endTok] at htk2

/-- C7: `tokenize` scans left to right attempting the ordered patterns at
each position: the output always ends with exactly one `$end` token at the
final scanned position; an "ignore" match produces no token; a position
matching no pattern produces a single-character `$err` token after which
scanning stops immediately (only the `$end` token follows, at that same
position); and every ordinary token is the first pattern match at its
position.  The hypotheses say each pattern match consumes at least one
character and stays in bounds (python regex guarantees; a zero-width match
would make the python loop spin forever) and that no caller pattern is
named `$end`/`$err`. -/
theorem spec_C7_tokenize (pats : List TokPat) (s : List Char)
    (hwf : ∀ pos, pos < s.length → matchOkAt pats s pos = true)
    (hn : ∀ p ∈ pats, p.name ≠ "$end" ∧ p.name ≠ "$err") :
    (∃ q ts, tokenize pats s = ts ++ [endTok q] ∧ ∀ t ∈ ts, t.kind ≠ "$end") ∧
    (∀ t ∈ tokenize pats s, t.kind ≠ "ignore") ∧
    (∀ t ∈ tokenize pats s, t.kind = "$err" →
      firstMatch pats s t.pos = none ∧
      ∃ ts0, tokenize pats s =
        ts0 ++ [⟨"$err", subText s t.pos 1, t.pos, []⟩, endTok t.pos]) ∧
    (∀ t ∈ tokenize pats s, t.kind ≠ "$err" → t.kind ≠ "$end" →
      ∃ len grps, firstMatch pats s t.pos = some (t.kind, len, grps) ∧
        t = ⟨t.kind, subText s t.pos len, t.pos, grps⟩) :=
  tokenizeAux_spec pats s hwf hn (s.length + 1) 0 (by omega) (by omega)

def exPats : List TokPat := [patA, patSpace]

def exStr : List Char := "a a@".toList

theorem spec_C7_tokenize_witness :
    (∃ q ts, tokenize exPats exStr = ts ++ [endTok q] ∧ ∀ t ∈ ts, t.kind ≠ "$end") ∧
    (∀ t ∈ tokenize exPats exStr, t.kind ≠ "ignore") ∧
    (∀ t ∈ tokenize exPats exStr, t.kind = "$err" →
      firstMatch exPats exStr t.pos = none ∧
      ∃ ts0, tokenize exPats exStr =
        ts0 ++ [⟨"$err", subText exStr t.pos 1, t.pos, []⟩, endTok t.pos]) ∧
    (∀ t ∈ tokenize exPats exStr, t.kind ≠ "$err" → t.kind ≠ "$end" →
      ∃ len grps, firstMatch exPats exStr t.pos = some (t.kind, len, grps) ∧
        t = ⟨t.kind, subText exStr t.pos len, t.pos, grps⟩) :=
  spec_C7_tokenize exPats exStr (by decide) (by decide)

end SymPad

